import Mathlib

/-
Verification development for the RayMarch renderer (src/RayMarch/src/Main.cpp).

The C++ program is a small CPU raymarcher over `float`; we embed it shallowly
over the exact reals: every float expression is translated literally into the
corresponding real-number expression.  The 3-vector primitive comes from
geometry.h, which is not part of the sources; its operations are modelled from
the specification (section 4.1).  Everything else is translated directly from
Main.cpp, preserving the source's control flow (including the operator
precedence of the return expression of box_signed_distance, and the exact
if-structure of mod, maxcomp and the componentwise max).
-/

noncomputable section

namespace RayMarch

/-- Modelled from the spec: the 3-component floating-point vector `Vec3f`
from geometry.h (not in src).  Section 3 of the spec: "three finite floats
(x,y,z)"; embedded over the exact reals. -/
@[ext]
structure Vec3f where
  x : ℝ
  y : ℝ
  z : ℝ

/-- Modelled from the spec: componentwise addition `a+b` (section 4.1). -/
instance : Add Vec3f := ⟨fun a b => ⟨a.x + b.x, a.y + b.y, a.z + b.z⟩⟩

/-- Modelled from the spec: componentwise subtraction `a−b` (section 4.1). -/
instance : Sub Vec3f := ⟨fun a b => ⟨a.x - b.x, a.y - b.y, a.z - b.z⟩⟩

/-- Modelled from the spec: scalar multiple `a*s` / `s*a` (section 4.1). -/
def smul (s : ℝ) (v : Vec3f) : Vec3f := ⟨s * v.x, s * v.y, s * v.z⟩

/-- Modelled from the spec: dot product `a·b` (section 4.1); written `a * b`
in the source. -/
def dot (a b : Vec3f) : ℝ := a.x * b.x + a.y * b.y + a.z * b.z

/-- Modelled from the spec: Euclidean norm `‖a‖ = √(a·a)` (section 4.1);
`.norm()` in the source. -/
def vnorm (v : Vec3f) : ℝ := Real.sqrt (dot v v)

/-- Modelled from the spec: `normalize(a) = a/‖a‖` (section 4.1);
`.normalize()` in the source. -/
def normalize (v : Vec3f) : Vec3f := smul (vnorm v)⁻¹ v

theorem add_def (a b : Vec3f) : a + b = ⟨a.x + b.x, a.y + b.y, a.z + b.z⟩ := rfl

theorem sub_def (a b : Vec3f) : a - b = ⟨a.x - b.x, a.y - b.y, a.z - b.z⟩ := rfl

/-! Compile-time constants of Main.cpp (lines 17-21). -/

def sphere_radius : ℝ := 1/4

def sphere_center : Vec3f := ⟨1/2, 1/2, 0⟩

def box_size : Vec3f := ⟨1/4, 1/4, 1/4⟩

def box_center : Vec3f := ⟨1/2, 1/2, 0⟩

def ray_steps : ℕ := 128

/-! The `mod` helper, Main.cpp lines 23-36.  The source function takes a
second argument `v`, but every call in the program passes `v = 1` (the
vector overload at lines 38-45 is invoked as `mod(p, 1)` at line 67), and
the spec names the helper `mod1` accordingly (section 4.2).  We embed the
recursion specialised at `v = 1`; for `v ≤ 0` the source recursion does not
terminate, so the specialisation is exactly the terminating fragment the
program exercises. -/

/-- Termination measure for `mod1`: how many recursive calls remain. -/
def mod1Measure (f : ℝ) : ℕ := if f < 0 then (⌈-f⌉).toNat else (⌊f⌋).toNat

theorem mod1Measure_add_one {f : ℝ} (h : f < 0) :
    mod1Measure (f + 1) < mod1Measure f := by
  have hc : 0 < ⌈-f⌉ := Int.ceil_pos.mpr (by linarith)
  unfold mod1Measure
  rw [if_pos h]
  by_cases h1 : f + 1 < 0
  · rw [if_pos h1]
    have h2 : (-(f + 1) : ℝ) = -f - ((1 : ℤ) : ℝ) := by push_cast; ring
    rw [h2, Int.ceil_sub_int]
    omega
  · rw [if_neg h1]
    have hfl : ⌊f + 1⌋ < 1 := Int.floor_lt.mpr (by push_cast; linarith)
    omega

theorem mod1Measure_sub_one {f : ℝ} (h0 : ¬ f < 0) (h1 : 1 ≤ f) :
    mod1Measure (f - 1) < mod1Measure f := by
  have hge : 1 ≤ ⌊f⌋ := Int.le_floor.mpr (by exact_mod_cast h1)
  unfold mod1Measure
  rw [if_neg h0, if_neg (by push_neg; linarith : ¬ f - 1 < 0)]
  have h2 : (f - 1 : ℝ) = f - ((1 : ℤ) : ℝ) := by push_cast; ring
  rw [h2, Int.floor_sub_int]
  omega

/-- The `mod` helper of Main.cpp (lines 23-36), specialised at `v = 1`:
`if (f < 0) { f += v; return mod(f, v); } else if (f >= v) { f -= v;
return mod(f, v); } return f;`. -/
def mod1 (f : ℝ) : ℝ :=
  if h : f < 0 then mod1 (f + 1)
  else if h1 : 1 ≤ f then mod1 (f - 1)
  else f
termination_by mod1Measure f
decreasing_by
  · exact mod1Measure_add_one h
  · exact mod1Measure_sub_one h h1

theorem mod1_of_nonneg_of_lt {f : ℝ} (h0 : 0 ≤ f) (h1 : f < 1) : mod1 f = f := by
  rw [mod1]
  rw [dif_neg (by linarith : ¬ f < 0), dif_neg (by linarith : ¬ 1 ≤ f)]

theorem mod1_neg_step {f : ℝ} (h : f < 0) : mod1 f = mod1 (f + 1) := by
  rw [mod1]
  rw [dif_pos h]

theorem mod1_ge_step {f : ℝ} (h0 : ¬ f < 0) (h1 : 1 ≤ f) :
    mod1 f = mod1 (f - 1) := by
  rw [mod1]
  rw [dif_neg h0, dif_pos h1]

theorem mod1_add_one (f : ℝ) : mod1 (f + 1) = mod1 f := by
  by_cases h : f < 0
  · exact (mod1_neg_step h).symm
  · have h1 : 1 ≤ f + 1 := by push_neg at h; linarith
    have h0 : ¬ f + 1 < 0 := by push_neg at h ⊢; linarith
    rw [mod1_ge_step h0 h1]
    norm_num

theorem mod1_sub_one (f : ℝ) : mod1 (f - 1) = mod1 f := by
  have := mod1_add_one (f - 1)
  rw [sub_add_cancel] at this
  exact this.symm

theorem mod1_add_int (f : ℝ) (n : ℤ) : mod1 (f + n) = mod1 f := by
  induction n using Int.induction_on with
  | hz => norm_num
  | hp k ih =>
    have h2 : f + (((k : ℤ) + 1 : ℤ) : ℝ) = (f + ((k : ℤ) : ℝ)) + 1 := by
      push_cast; ring
    rw [h2, mod1_add_one, ih]
  | hn k ih =>
    have h2 : f + ((-(k : ℤ) - 1 : ℤ) : ℝ) = (f + ((-(k : ℤ) : ℤ) : ℝ)) - 1 := by
      push_cast; ring
    rw [h2, mod1_sub_one, ih]

theorem mod1_range_aux : ∀ (n : ℕ) (f : ℝ), mod1Measure f ≤ n →
    0 ≤ mod1 f ∧ mod1 f < 1 := by
  intro n
  induction n with
  | zero =>
    intro f hf
    unfold mod1Measure at hf
    by_cases h : f < 0
    · rw [if_pos h] at hf
      have hc : 0 < ⌈-f⌉ := Int.ceil_pos.mpr (by linarith)
      omega
    · rw [if_neg h] at hf
      push_neg at h
      have h0 : 0 ≤ ⌊f⌋ := Int.floor_nonneg.mpr h
      have hfl : ⌊f⌋ = 0 := by omega
      have h1 : f < 1 := by
        have := Int.lt_floor_add_one f
        rw [hfl] at this
        simpa using this
      rw [mod1_of_nonneg_of_lt h h1]
      exact ⟨h, h1⟩
  | succ n ih =>
    intro f hf
    by_cases h : f < 0
    · rw [mod1_neg_step h]
      exact ih _ (by have := mod1Measure_add_one h; omega)
    · by_cases h1 : 1 ≤ f
      · rw [mod1_ge_step h h1]
        exact ih _ (by have := mod1Measure_sub_one h h1; omega)
      · push_neg at h h1
        rw [mod1_of_nonneg_of_lt h h1]
        exact ⟨h, h1⟩

theorem mod1_range (f : ℝ) : 0 ≤ mod1 f ∧ mod1 f < 1 :=
  mod1_range_aux (mod1Measure f) f le_rfl

/-- The vector overload `Vec3f mod(Vec3f p, float val)` of Main.cpp
(lines 38-45), specialised at `val = 1` as the program calls it. -/
def modv (p : Vec3f) : Vec3f := ⟨mod1 p.x, mod1 p.y, mod1 p.z⟩

/-- `Vec3f abs(Vec3f p)` of Main.cpp (lines 47-50). -/
def vabs (p : Vec3f) : Vec3f := ⟨|p.x|, |p.y|, |p.z|⟩

/-- `Vec3f max(Vec3f p, float v)` of Main.cpp (lines 52-55):
componentwise `p.k > v ? p.k : v`. -/
def vmax (p : Vec3f) (v : ℝ) : Vec3f :=
  ⟨if p.x > v then p.x else v, if p.y > v then p.y else v,
    if p.z > v then p.z else v⟩

/-- `float maxcomp(Vec3f p)` of Main.cpp (lines 57-63). -/
def maxcomp (p : Vec3f) : ℝ :=
  let m1 := if p.y > p.x then p.y else p.x
  if p.z > m1 then p.z else m1

/-- `sphere_signed_distance` of Main.cpp (lines 65-68):
`(mod(p, 1) - sphere_center).norm() - sphere_radius`. -/
def sphere_signed_distance (p : Vec3f) : ℝ :=
  vnorm (modv p - sphere_center) - sphere_radius

/-- `box_signed_distance` of Main.cpp (lines 70-75).  The return expression
`max( q, 0 ).norm() + ( maxComp < 0 ) ? maxComp : 0` parses in C++ as
`(max(q,0).norm() + (maxComp < 0)) ? maxComp : 0`: the bool is promoted to
a number, added to the norm, and the sum is used as the condition of the
conditional expression (nonzero means true). -/
def box_signed_distance (p : Vec3f) : ℝ :=
  let q := vabs p - box_center - box_size
  let maxComp := maxcomp q
  if vnorm (vmax q 0) + (if maxComp < 0 then (1 : ℝ) else 0) ≠ 0 then maxComp
  else 0

theorem vnorm_nonneg (v : Vec3f) : 0 ≤ vnorm v := Real.sqrt_nonneg _

theorem dot_self_nonneg (v : Vec3f) : 0 ≤ dot v v := by
  have h : dot v v = v.x ^ 2 + v.y ^ 2 + v.z ^ 2 := by unfold dot; ring
  rw [h]
  positivity

theorem vnorm_eq_zero {v : Vec3f} (h : vnorm v = 0) :
    v.x = 0 ∧ v.y = 0 ∧ v.z = 0 := by
  unfold vnorm at h
  have hd : dot v v ≤ 0 := Real.sqrt_eq_zero'.mp h
  have hd0 : dot v v = 0 := le_antisymm hd (dot_self_nonneg v)
  unfold dot at hd0
  refine ⟨?_, ?_, ?_⟩ <;> nlinarith [sq_nonneg v.x, sq_nonneg v.y, sq_nonneg v.z]

theorem maxcomp_eq (p : Vec3f) : maxcomp p = max (max p.x p.y) p.z := by
  simp only [maxcomp]
  by_cases h1 : p.y > p.x
  · simp only [if_pos h1]
    rw [max_eq_right h1.le]
    by_cases h2 : p.z > p.y
    · simp only [if_pos h2]
      exact (max_eq_right h2.le).symm
    · simp only [if_neg h2]
      exact (max_eq_left (not_lt.mp h2)).symm
  · simp only [if_neg h1]
    rw [max_eq_left (not_lt.mp h1)]
    by_cases h2 : p.z > p.x
    · simp only [if_pos h2]
      exact (max_eq_right h2.le).symm
    · simp only [if_neg h2]
      exact (max_eq_left (not_lt.mp h2)).symm

/-- The collapsed form of `box_signed_distance`: because of the operator
precedence in the source, every call returns `maxcomp q`.  When the
condition evaluates to zero, the norm of `max(q,0)` is zero (so every
component of `q` is nonpositive) and `maxComp < 0` is false, which forces
`maxcomp q = 0` as well, so returning `0` agrees with `maxcomp q`. -/
theorem box_sdf_eq_maxcomp (p : Vec3f) :
    box_signed_distance p = maxcomp (vabs p - box_center - box_size) := by
  unfold box_signed_distance
  set q := vabs p - box_center - box_size with hq
  by_cases hc : vnorm (vmax q 0) + (if maxcomp q < 0 then (1 : ℝ) else 0) ≠ 0
  · simp [hc]
  · push_neg at hc
    have hind : (if maxcomp q < 0 then (1 : ℝ) else 0) = 0 := by
      by_contra hne
      have h1 : (if maxcomp q < 0 then (1 : ℝ) else 0) = 1 := by
        split at hne <;> simp_all
      have := vnorm_nonneg (vmax q 0)
      rw [h1] at hc
      linarith
    have hnn : ¬ maxcomp q < 0 := by
      by_contra hlt
      rw [if_pos hlt] at hind
      norm_num at hind
    have hnorm : vnorm (vmax q 0) = 0 := by
      rw [hind] at hc
      linarith
    obtain ⟨hx, hy, hz⟩ := vnorm_eq_zero hnorm
    unfold vmax at hx hy hz
    simp only at hx hy hz
    have hqx : q.x ≤ 0 := by by_contra hgt; push_neg at hgt; simp [hgt] at hx; linarith
    have hqy : q.y ≤ 0 := by by_contra hgt; push_neg at hgt; simp [hgt] at hy; linarith
    have hqz : q.z ≤ 0 := by by_contra hgt; push_neg at hgt; simp [hgt] at hz; linarith
    have hle : maxcomp q ≤ 0 := by
      rw [maxcomp_eq]
      simp [max_le_iff]
      exact ⟨⟨hqx, hqy⟩, hqz⟩
    have heq : maxcomp q = 0 := le_antisymm hle (not_lt.mp hnn)
    simp [hc, heq]

/-! The tracer, Main.cpp lines 77-99.  `sphere_trace` and `box_trace` are
the same `for( size_t i = 0; i < ray_steps; i++ )` loop instantiated with
the two SDFs; we embed the loop once, recursing on the remaining iteration
count, so totality (termination) holds by construction.  The pair returned
is (the `bool` result, the final value of the out-parameter `pos`). -/

/-- One advance of the tracer position (Main.cpp lines 84 and 96):
`pos = pos + dir * std::max( d * 0.1f, .01f )` where `d = sdf(pos)`. -/
def advance (sdf : Vec3f → ℝ) (dir pos : Vec3f) : Vec3f :=
  pos + smul (max (sdf pos * (1/10)) (1/100)) dir

/-- The tracer loop body (Main.cpp lines 80-85 / 92-97): evaluate the SDF
once, exit with a hit when `d < 0`, otherwise advance and continue. -/
def trace_loop (sdf : Vec3f → ℝ) (dir : Vec3f) : ℕ → Vec3f → Bool × Vec3f
  | 0, pos => (false, pos)
  | n + 1, pos =>
    if sdf pos < 0 then (true, pos)
    else trace_loop sdf dir n (advance sdf dir pos)

/-- `sphere_trace` of Main.cpp (lines 77-87). -/
def sphere_trace (orig dir : Vec3f) : Bool × Vec3f :=
  trace_loop sphere_signed_distance dir ray_steps orig

/-- `box_trace` of Main.cpp (lines 89-99). -/
def box_trace (orig dir : Vec3f) : Bool × Vec3f :=
  trace_loop box_signed_distance dir ray_steps orig

/-- Number of SDF evaluations a `trace_loop` call performs: one per loop
iteration (the loop body of Main.cpp lines 80-85 evaluates the SDF exactly
once, at line 82). -/
def trace_evals (sdf : Vec3f → ℝ) (dir : Vec3f) : ℕ → Vec3f → ℕ
  | 0, _ => 0
  | n + 1, pos =>
    if sdf pos < 0 then 1
    else trace_evals sdf dir n (advance sdf dir pos) + 1

theorem trace_evals_le (sdf : Vec3f → ℝ) (dir : Vec3f) :
    ∀ (n : ℕ) (pos : Vec3f), trace_evals sdf dir n pos ≤ n := by
  intro n
  induction n with
  | zero => intro pos; simp [trace_evals]
  | succ n ih =>
    intro pos
    unfold trace_evals
    split
    · omega
    · have := ih (advance sdf dir pos)
      omega

theorem trace_loop_miss (sdf : Vec3f → ℝ) (dir : Vec3f) :
    ∀ (n : ℕ) (pos : Vec3f),
      (∀ k < n, ¬ sdf ((advance sdf dir)^[k] pos) < 0) →
      trace_loop sdf dir n pos = (false, (advance sdf dir)^[n] pos) := by
  intro n
  induction n with
  | zero => intro pos _; simp [trace_loop]
  | succ n ih =>
    intro pos h
    have h0 : ¬ sdf pos < 0 := by
      have := h 0 (Nat.succ_pos n)
      simpa using this
    unfold trace_loop
    rw [if_neg h0]
    have hrec := ih (advance sdf dir pos) ?_
    · rw [hrec]
      have : (advance sdf dir)^[n] (advance sdf dir pos) =
          (advance sdf dir)^[n + 1] pos := by
        rw [Function.iterate_succ_apply]
      rw [this]
    · intro k hk
      have := h (k + 1) (by omega)
      rw [Function.iterate_succ_apply] at this
      exact this

/-! Normal estimation (Main.cpp lines 102-120) and shading / render driver
(Main.cpp lines 122-160). -/

/-- `distance_field_normal_sphere` of Main.cpp (lines 102-110): forward
finite differences with `eps = 0.1`, then `.normalize()`. -/
def distance_field_normal_sphere (pos : Vec3f) : Vec3f :=
  let eps : ℝ := 1/10
  let d := sphere_signed_distance pos
  let nx := sphere_signed_distance (pos + ⟨eps, 0, 0⟩) - d
  let ny := sphere_signed_distance (pos + ⟨0, eps, 0⟩) - d
  let nz := sphere_signed_distance (pos + ⟨0, 0, eps⟩) - d
  normalize ⟨nx, ny, nz⟩

/-- `distance_field_normal_box` of Main.cpp (lines 112-120). -/
def distance_field_normal_box (pos : Vec3f) : Vec3f :=
  let eps : ℝ := 1/10
  let d := box_signed_distance pos
  let nx := box_signed_distance (pos + ⟨eps, 0, 0⟩) - d
  let ny := box_signed_distance (pos + ⟨0, eps, 0⟩) - d
  let nz := box_signed_distance (pos + ⟨0, 0, eps⟩) - d
  normalize ⟨nx, ny, nz⟩

/-- The shaded intensity (Main.cpp lines 145 and 152):
`std::max( 0.4f, light_dir * n )`, the `*` being the dot product. -/
def light_intensity (light_dir n : Vec3f) : ℝ := max (2/5) (dot light_dir n)

/-- The light position `Vec3f(10, 10, 10)` (Main.cpp lines 144 and 151). -/
def light_pos : Vec3f := ⟨10, 10, 10⟩

/-- The shaded color of a box hit (Main.cpp lines 151-153):
`Vec3f(1,1,1) * light_intensity` with
`light_dir = (Vec3f(10,10,10) - hit).normalize()`. -/
def shade_box (hit : Vec3f) : Vec3f :=
  smul (light_intensity (normalize (light_pos - hit))
    (distance_field_normal_box hit)) ⟨1, 1, 1⟩

/-- The shaded color of a sphere hit (Main.cpp lines 144-146). -/
def shade_sphere (hit : Vec3f) : Vec3f :=
  smul (light_intensity (normalize (light_pos - hit))
    (distance_field_normal_sphere hit)) ⟨1, 1, 1⟩

/-- Image width (Main.cpp line 124). -/
def width : ℕ := 640

/-- Image height (Main.cpp line 125). -/
def height : ℕ := 480

/-- Field of view `M_PI / 3.` (Main.cpp line 126). -/
def fov : ℝ := Real.pi / 3

/-- `dir_x = (i + 0.5) - width / 2.` (Main.cpp line 136). -/
def dir_x (i : ℕ) : ℝ := ((i : ℝ) + 1/2) - (width : ℝ) / 2

/-- `dir_y = -(j + 0.5) + height / 2.` (Main.cpp line 137). -/
def dir_y (j : ℕ) : ℝ := -((j : ℝ) + 1/2) + (height : ℝ) / 2

/-- `dir_z = -height / (2. * tan(fov / 2.))` (Main.cpp line 138). -/
def dir_z : ℝ := -(height : ℝ) / (2 * Real.tan (fov / 2))

/-- The primary ray direction of pixel (i, j):
`Vec3f(dir_x, dir_y, dir_z).normalize()` (Main.cpp lines 142/148). -/
def pixel_dir (i j : ℕ) : Vec3f := normalize ⟨dir_x i, dir_y j, dir_z⟩

/-- `bool calcSphere = false` (Main.cpp line 140). -/
def calcSphere : Bool := false

/-- `bool calcBox = true` (Main.cpp line 141). -/
def calcBox : Bool := true

/-- The background color `Vec3f(0.2, 0.7, 0.8)` (Main.cpp line 157). -/
def background : Vec3f := ⟨1/5, 7/10, 4/5⟩

/-- The color written to framebuffer slot `i + j * width`
(Main.cpp lines 134-158): the inner body of the render loop. -/
def pixel (i j : ℕ) : Vec3f :=
  let dir := pixel_dir i j
  let sres := sphere_trace ⟨1, 1, 3⟩ dir
  let bres := box_trace ⟨1/2, 1/2, 3⟩ dir
  if calcSphere && sres.1 then shade_sphere sres.2
  else if calcBox && bres.1 then shade_box bres.2
  else background

/-! Norm and dot-product facts used to bound shaded intensities. -/

theorem vnorm_smul (s : ℝ) (v : Vec3f) : vnorm (smul s v) = |s| * vnorm v := by
  unfold vnorm smul dot
  simp only
  have h : s * v.x * (s * v.x) + s * v.y * (s * v.y) + s * v.z * (s * v.z) =
      s ^ 2 * (v.x * v.x + v.y * v.y + v.z * v.z) := by ring
  rw [h, Real.sqrt_mul (sq_nonneg s), Real.sqrt_sq_eq_abs]

theorem vnorm_normalize_le_one (v : Vec3f) : vnorm (normalize v) ≤ 1 := by
  unfold normalize
  rw [vnorm_smul]
  have hn : 0 ≤ vnorm v := vnorm_nonneg v
  rw [abs_of_nonneg (inv_nonneg.mpr hn)]
  by_cases h : vnorm v = 0
  · rw [h]
    norm_num
  · rw [inv_mul_cancel₀ h]

/-- Cauchy-Schwarz for the componentwise dot product and the sqrt-norm. -/
theorem dot_le_vnorm_mul_vnorm (a b : Vec3f) : dot a b ≤ vnorm a * vnorm b := by
  have hsq : dot a b ^ 2 ≤ dot a a * dot b b := by
    unfold dot
    nlinarith [sq_nonneg (a.x * b.y - a.y * b.x), sq_nonneg (a.x * b.z - a.z * b.x),
      sq_nonneg (a.y * b.z - a.z * b.y)]
  calc dot a b ≤ |dot a b| := le_abs_self _
    _ = Real.sqrt (dot a b ^ 2) := (Real.sqrt_sq_eq_abs _).symm
    _ ≤ Real.sqrt (dot a a * dot b b) := Real.sqrt_le_sqrt hsq
    _ = vnorm a * vnorm b := by
        rw [Real.sqrt_mul (dot_self_nonneg a)]
        rfl

theorem dot_normalize_le_one (u w : Vec3f) :
    dot (normalize u) (normalize w) ≤ 1 := by
  calc dot (normalize u) (normalize w)
      ≤ vnorm (normalize u) * vnorm (normalize w) := dot_le_vnorm_mul_vnorm _ _
    _ ≤ 1 := by
        have h1 := vnorm_normalize_le_one u
        have h2 := vnorm_normalize_le_one w
        have h3 := vnorm_nonneg (normalize w)
        nlinarith

theorem light_intensity_bounds (u w : Vec3f) :
    2/5 ≤ light_intensity (normalize u) (normalize w) ∧
      light_intensity (normalize u) (normalize w) ≤ 1 := by
  unfold light_intensity
  constructor
  · exact le_max_left _ _
  · exact max_le (by norm_num) (dot_normalize_le_one u w)

/-! The render loop as a state transformer (Main.cpp lines 131-160).  The
framebuffer is a flat array indexed by `i + j * width`; the `#pragma omp
parallel for` distributes the rows `j` across worker threads.  Row writes
touch pairwise disjoint index sets, so any interleaving of the workers is
equivalent to running the rows in some sequence; we model a distribution of
rows across workers as the list of rows in the order their writes land, and
prove the final framebuffer is the same for every such list that covers all
rows. -/

/-- Writing one pixel into the flat framebuffer
(Main.cpp lines 146/153/157): slot `i + j * width` receives `pixel i j`. -/
def writePixel (fb : ℕ → Vec3f) (i j : ℕ) : ℕ → Vec3f :=
  fun idx => if idx = i + j * width then pixel i j else fb idx

/-- The inner loop over `i` (Main.cpp line 134) for one row `j`. -/
def renderRow (fb : ℕ → Vec3f) (j : ℕ) : ℕ → Vec3f :=
  (List.range width).foldl (fun acc i => writePixel acc i j) fb

/-- Running the rows of the outer loop (Main.cpp line 132) in a given
order. -/
def renderRows : List ℕ → (ℕ → Vec3f) → (ℕ → Vec3f)
  | [], fb => fb
  | j :: js, fb => renderRows js (renderRow fb j)

theorem renderRow_aux (j' : ℕ) (i j : ℕ) (hi : i < width) :
    ∀ (n : ℕ), n ≤ width → ∀ (fb : ℕ → Vec3f),
      ((List.range n).foldl (fun acc i' => writePixel acc i' j') fb)
          (i + j * width) =
        if j' = j ∧ i < n then pixel i j else fb (i + j * width) := by
  have hw : width = 640 := rfl
  intro n
  induction n with
  | zero =>
    intro _ fb
    simp [List.range_zero]
  | succ n ih =>
    intro hn fb
    rw [List.range_succ, List.foldl_append]
    simp only [List.foldl_cons, List.foldl_nil]
    have hrec := ih (by omega) fb
    simp only [writePixel]
    by_cases heq : i + j * width = n + j' * width
    · have hij1 : i = n := by
        rw [hw] at heq hi hn
        omega
      have hij2 : j = j' := by
        rw [hw] at heq hi hn
        omega
      subst hij1
      subst hij2
      rw [if_pos heq, if_pos ⟨rfl, Nat.lt_succ_self i⟩]
    · rw [if_neg heq, hrec]
      by_cases hj : j' = j ∧ i < n
      · rw [if_pos hj, if_pos ⟨hj.1, by omega⟩]
      · rw [if_neg hj]
        rw [if_neg (fun hc => ?_)]
        by_cases hin : i < n
        · exact hj ⟨hc.1, hin⟩
        · have hieq : i = n := by omega
          exact heq (by rw [hieq, hc.1])

theorem renderRow_apply (fb : ℕ → Vec3f) (j' i j : ℕ) (hi : i < width) :
    renderRow fb j' (i + j * width) =
      if j' = j then pixel i j else fb (i + j * width) := by
  unfold renderRow
  rw [renderRow_aux j' i j hi width le_rfl fb]
  by_cases hj : j' = j
  · rw [if_pos ⟨hj, hi⟩, if_pos hj]
  · rw [if_neg (fun hc => hj hc.1), if_neg hj]

theorem renderRows_apply (i j : ℕ) (hi : i < width) :
    ∀ (js : List ℕ) (fb : ℕ → Vec3f),
      renderRows js fb (i + j * width) =
        if j ∈ js then pixel i j else fb (i + j * width) := by
  intro js
  induction js with
  | nil => intro fb; simp [renderRows]
  | cons j' js ih =>
    intro fb
    simp only [renderRows]
    rw [ih, renderRow_apply fb j' i j hi]
    by_cases hmem : j ∈ js
    · rw [if_pos hmem, if_pos (List.mem_cons_of_mem j' hmem)]
    · rw [if_neg hmem]
      by_cases hj : j' = j
      · rw [if_pos hj, if_pos (by rw [hj]; exact List.mem_cons_self j js)]
      · rw [if_neg hj, if_neg (by
          intro hc
          rcases List.mem_cons.mp hc with hc | hc
          · exact hj hc.symm
          · exact hmem hc)]

/-! The framebuffer sink (Main.cpp lines 165-175).  Each component is
converted by `(char)( std::max( 0, std::min( 255, static_cast<int>( 255 *
c ) ) ) )`: the float `255 * c` is converted to `int` by truncation toward
zero, then clamped to [0, 255]. -/

/-- C++ `static_cast<int>` on a float value: truncation toward zero. -/
def cast_trunc (x : ℝ) : ℤ := if x < 0 then ⌈x⌉ else ⌊x⌋

/-- The byte the sink writes for a framebuffer component `c`
(Main.cpp line 172). -/
def sink_byte (c : ℝ) : ℤ := max 0 (min 255 (cast_trunc (255 * c)))

/-- Stated from the spec, for comparison with the source's `sink_byte`:
section 4.7 says the sink converts via `clamp(round(255·c), 0, 255)`,
rounding to the nearest integer before clamping. -/
def sink_byte_spec (c : ℝ) : ℤ := max 0 (min 255 (round (255 * c)))

/-! Claim theorems. -/

/-- C2: for every input point `p`, `box_signed_distance p` returns exactly
`maxcomp (abs p - box_center - box_size)`: the conditional on the return
line always evaluates to the `maxComp` branch (when the condition
`‖max(q,0)‖ + (maxComp < 0)` is zero, `maxComp` itself is also zero), so
the `‖max(q,0)‖` exterior term never contributes to the returned value. -/
theorem box_sdf_collapses_to_maxcomp (p : Vec3f) :
    box_signed_distance p = maxcomp (vabs p - box_center - box_size) :=
  box_sdf_eq_maxcomp p

/-- C1 counterexample: the point `p = (-1/2, 1/2, 0)` is outside the
bounding box `{ p | ∀ k, |p_k - box_center_k| < box_size_k }` (its x
coordinate is a full unit from the box center), yet
`box_signed_distance p = -1/4 ≤ 0`, refuting the claimed positivity of the
SDF outside the bounding box: `abs(p)` mirrors the box through the
coordinate planes. -/
theorem box_sign_agreement_cex :
    ¬ (|(-1/2 : ℝ) - box_center.x| < box_size.x ∧
        |(1/2 : ℝ) - box_center.y| < box_size.y ∧
        |(0 : ℝ) - box_center.z| < box_size.z) ∧
      box_signed_distance ⟨-1/2, 1/2, 0⟩ ≤ 0 := by
  constructor
  · intro ⟨hx, _, _⟩
    rw [show box_center.x = 1/2 from rfl, show box_size.x = 1/4 from rfl] at hx
    rw [abs_lt] at hx
    linarith [hx.1]
  · rw [box_sdf_eq_maxcomp, maxcomp_eq]
    simp only [vabs, sub_def, box_center, box_size]
    norm_num [max_le_iff, abs_le]

/-- C1 amended: inside the stated bounding box the SDF is indeed
nonpositive, but the positivity guarantee only holds outside the
origin-centered region `|p.x| ≤ 3/4 ∧ |p.y| ≤ 3/4 ∧ |p.z| ≤ 1/4` (the
stated box mirrored through the coordinate planes, since the code applies
`abs(p)` before subtracting the center): `box_signed_distance p > 0`
exactly when `3/4 < |p.x|`, `3/4 < |p.y|` or `1/4 < |p.z|`; in
particular every point of the closed mirrored region, including mirror
images of the stated box, gets a nonpositive value. -/
theorem box_sign_agreement :
    (∀ p : Vec3f,
        |p.x - box_center.x| < box_size.x →
        |p.y - box_center.y| < box_size.y →
        |p.z - box_center.z| < box_size.z →
        box_signed_distance p ≤ 0) ∧
    (∀ p : Vec3f, 0 < box_signed_distance p ↔
        3/4 < |p.x| ∨ 3/4 < |p.y| ∨ 1/4 < |p.z|) := by
  constructor
  · intro p hx hy hz
    rw [show box_center.x = 1/2 from rfl, show box_size.x = 1/4 from rfl] at hx
    rw [show box_center.y = 1/2 from rfl, show box_size.y = 1/4 from rfl] at hy
    rw [show box_center.z = 0 from rfl, show box_size.z = 1/4 from rfl] at hz
    rw [abs_lt] at hx hy hz
    rw [box_sdf_eq_maxcomp, maxcomp_eq]
    simp only [vabs, sub_def, box_center, box_size]
    have hax : |p.x| < 3/4 := abs_lt.mpr ⟨by linarith [hx.1], by linarith [hx.2]⟩
    have hay : |p.y| < 3/4 := abs_lt.mpr ⟨by linarith [hy.1], by linarith [hy.2]⟩
    have haz : |p.z| < 1/4 := abs_lt.mpr ⟨by linarith [hz.1], by linarith [hz.2]⟩
    apply max_le (max_le (by linarith) (by linarith)) (by linarith)
  · intro p
    rw [box_sdf_eq_maxcomp, maxcomp_eq]
    simp only [vabs, sub_def, box_center, box_size]
    rw [lt_max_iff, lt_max_iff]
    constructor
    · rintro ((h | h) | h)
      · exact Or.inl (by linarith)
      · exact Or.inr (Or.inl (by linarith))
      · exact Or.inr (Or.inr (by linarith))
    · rintro (h | h | h)
      · exact Or.inl (Or.inl (by linarith))
      · exact Or.inl (Or.inr (by linarith))
      · exact Or.inr (by linarith)

/-- C1 witness: both parts of the amended claim at concrete points.  The
interior point `(1/2, 1/2, 0)` (the box center) satisfies the bounding-box
hypotheses and gets a nonpositive distance; the point `(1, 0, 0)` has
`3/4 < |1|` and gets a positive distance. -/
theorem box_sign_agreement_witness :
    (|(1/2 : ℝ) - box_center.x| < box_size.x ∧
      |(1/2 : ℝ) - box_center.y| < box_size.y ∧
      |(0 : ℝ) - box_center.z| < box_size.z) ∧
    box_signed_distance ⟨1/2, 1/2, 0⟩ ≤ 0 ∧
    (3/4 < |(1 : ℝ)| ∨ 3/4 < |(0 : ℝ)| ∨ 1/4 < |(0 : ℝ)|) ∧
    0 < box_signed_distance ⟨1, 0, 0⟩ := by
  have hx : |(1/2 : ℝ) - box_center.x| < box_size.x := by
    rw [show box_center.x = 1/2 from rfl, show box_size.x = 1/4 from rfl]
    norm_num
  have hy : |(1/2 : ℝ) - box_center.y| < box_size.y := by
    rw [show box_center.y = 1/2 from rfl, show box_size.y = 1/4 from rfl]
    norm_num
  have hz : |(0 : ℝ) - box_center.z| < box_size.z := by
    rw [show box_center.z = 0 from rfl, show box_size.z = 1/4 from rfl]
    norm_num
  have hout : 3/4 < |(1 : ℝ)| ∨ 3/4 < |(0 : ℝ)| ∨ 1/4 < |(0 : ℝ)| := by
    left
    norm_num
  exact ⟨⟨hx, hy, hz⟩, box_sign_agreement.1 ⟨1/2, 1/2, 0⟩ hx hy hz, hout,
    (box_sign_agreement.2 ⟨1, 0, 0⟩).mpr hout⟩

/-- C4: the repeated-sphere SDF is periodic on the unit lattice: for every
point `p` and integers `(i, j, k)`,
`sphere_signed_distance (p + (i,j,k)) = sphere_signed_distance p` (exactly,
in the exact-real embedding). -/
theorem sphere_sdf_lattice_periodic (p : Vec3f) (i j k : ℤ) :
    sphere_signed_distance (p + ⟨(i : ℝ), (j : ℝ), (k : ℝ)⟩) =
      sphere_signed_distance p := by
  unfold sphere_signed_distance
  have hm : modv (p + ⟨(i : ℝ), (j : ℝ), (k : ℝ)⟩) = modv p := by
    unfold modv
    rw [add_def]
    simp only
    ext
    · exact mod1_add_int p.x i
    · exact mod1_add_int p.y j
    · exact mod1_add_int p.z k
  rw [hm]

/-- C5: the recursion `mod(f, 1)` of Main.cpp terminates on every real
input (the function is total, by well-founded recursion on `mod1Measure`)
and its result lies in the half-open interval [0, 1), including for
negative `f`. -/
theorem mod_terminates_in_unit_interval (f : ℝ) :
    0 ≤ mod1 f ∧ mod1 f < 1 :=
  mod1_range f

/-- C3: the tracer's budget.  `sphere_trace` and `box_trace` (both total
functions, so every call terminates) evaluate their SDF at most
`ray_steps = 128` times, and whenever none of the loop iterations observes
`d < 0` the call returns `false` (a miss), with no other outcome. -/
theorem trace_step_budget (orig dir : Vec3f) :
    ray_steps = 128 ∧
    trace_evals sphere_signed_distance dir ray_steps orig ≤ ray_steps ∧
    trace_evals box_signed_distance dir ray_steps orig ≤ ray_steps ∧
    ((∀ k < ray_steps,
        ¬ sphere_signed_distance
            ((advance sphere_signed_distance dir)^[k] orig) < 0) →
      (sphere_trace orig dir).1 = false) ∧
    ((∀ k < ray_steps,
        ¬ box_signed_distance ((advance box_signed_distance dir)^[k] orig) < 0) →
      (box_trace orig dir).1 = false) := by
  refine ⟨rfl, trace_evals_le _ _ _ _, trace_evals_le _ _ _ _, ?_, ?_⟩
  · intro h
    unfold sphere_trace
    rw [trace_loop_miss _ _ _ _ h]
  · intro h
    unfold box_trace
    rw [trace_loop_miss _ _ _ _ h]

theorem advance_zero_dir (sdf : Vec3f → ℝ) (pos : Vec3f) :
    advance sdf ⟨0, 0, 0⟩ pos = pos := by
  unfold advance smul
  rw [add_def]
  ext <;> simp

theorem mod1_two : mod1 (2 : ℝ) = 0 := by
  have h := mod1_add_int 0 2
  norm_num at h
  rw [h]
  exact mod1_of_nonneg_of_lt le_rfl one_pos

theorem sphere_sdf_far_nonneg : 0 ≤ sphere_signed_distance ⟨2, 2, 2⟩ := by
  unfold sphere_signed_distance
  have hm : modv ⟨2, 2, 2⟩ = ⟨0, 0, 0⟩ := by
    unfold modv
    simp only
    ext <;> exact mod1_two
  rw [hm]
  have hd : dot ((⟨0, 0, 0⟩ : Vec3f) - sphere_center)
      ((⟨0, 0, 0⟩ : Vec3f) - sphere_center) = 1/2 := by
    rw [sub_def]
    unfold dot sphere_center
    norm_num
  have hs : (1/4 : ℝ) ≤ Real.sqrt (1/2) := by
    rw [show (1/4 : ℝ) = Real.sqrt ((1/4) ^ 2) from (Real.sqrt_sq (by norm_num)).symm]
    exact Real.sqrt_le_sqrt (by norm_num)
  unfold vnorm sphere_radius
  rw [hd]
  linarith

theorem box_sdf_far_nonneg : 0 ≤ box_signed_distance ⟨2, 2, 2⟩ := by
  rw [box_sdf_eq_maxcomp, maxcomp_eq]
  simp only [vabs, sub_def, box_center, box_size]
  norm_num [le_max_iff]

/-- C3 witness: the budget and the miss outcome at the concrete call
`trace(origin = (2,2,2), dir = (0,0,0))`, for which every iterate stays at
the origin point and both SDFs are nonnegative there, so no iteration
observes `d < 0`. -/
theorem trace_step_budget_witness :
    trace_evals sphere_signed_distance ⟨0, 0, 0⟩ ray_steps ⟨2, 2, 2⟩ ≤ ray_steps ∧
    trace_evals box_signed_distance ⟨0, 0, 0⟩ ray_steps ⟨2, 2, 2⟩ ≤ ray_steps ∧
    (sphere_trace ⟨2, 2, 2⟩ ⟨0, 0, 0⟩).1 = false ∧
    (box_trace ⟨2, 2, 2⟩ ⟨0, 0, 0⟩).1 = false := by
  have h := trace_step_budget ⟨2, 2, 2⟩ ⟨0, 0, 0⟩
  have hs : ∀ k < ray_steps,
      ¬ sphere_signed_distance
          ((advance sphere_signed_distance ⟨0, 0, 0⟩)^[k] ⟨2, 2, 2⟩) < 0 := by
    intro k _
    rw [Function.iterate_fixed (advance_zero_dir _ _) k]
    exact not_lt.mpr sphere_sdf_far_nonneg
  have hb : ∀ k < ray_steps,
      ¬ box_signed_distance
          ((advance box_signed_distance ⟨0, 0, 0⟩)^[k] ⟨2, 2, 2⟩) < 0 := by
    intro k _
    rw [Function.iterate_fixed (advance_zero_dir _ _) k]
    exact not_lt.mpr box_sdf_far_nonneg
  exact ⟨h.2.1, h.2.2.1, h.2.2.2.1 hs, h.2.2.2.2 hb⟩

/-- C6: for unit `light_dir` and unit estimated normal, the shaded
intensity `light_intensity = max(0.4, light_dir · n)` lies in [0.4, 1]
(upper bound by Cauchy-Schwarz). -/
theorem shaded_intensity_bounds (l n : Vec3f) (hl : vnorm l = 1)
    (hn : vnorm n = 1) :
    2/5 ≤ light_intensity l n ∧ light_intensity l n ≤ 1 := by
  constructor
  · exact le_max_left _ _
  · apply max_le (by norm_num)
    calc dot l n ≤ vnorm l * vnorm n := dot_le_vnorm_mul_vnorm l n
      _ = 1 := by rw [hl, hn, mul_one]

/-- C6 witness: the bounds at the concrete unit vectors `(1,0,0)` and
`(0,1,0)`. -/
theorem shaded_intensity_bounds_witness :
    vnorm ⟨1, 0, 0⟩ = 1 ∧ vnorm ⟨0, 1, 0⟩ = 1 ∧
    2/5 ≤ light_intensity ⟨1, 0, 0⟩ ⟨0, 1, 0⟩ ∧
    light_intensity ⟨1, 0, 0⟩ ⟨0, 1, 0⟩ ≤ 1 := by
  have hl : vnorm (⟨1, 0, 0⟩ : Vec3f) = 1 := by
    unfold vnorm dot
    norm_num
  have hn : vnorm (⟨0, 1, 0⟩ : Vec3f) = 1 := by
    unfold vnorm dot
    norm_num
  have h := shaded_intensity_bounds ⟨1, 0, 0⟩ ⟨0, 1, 0⟩ hl hn
  exact ⟨hl, hn, h.1, h.2⟩

theorem shade_box_intensity_bounds (hit : Vec3f) :
    2/5 ≤ light_intensity (normalize (light_pos - hit))
        (distance_field_normal_box hit) ∧
      light_intensity (normalize (light_pos - hit))
        (distance_field_normal_box hit) ≤ 1 := by
  unfold distance_field_normal_box
  exact light_intensity_bounds _ _

/-- C7: every RGB component the render loop stores in the framebuffer,
shaded and background pixels alike, lies in [0, 1]: shaded components equal
the intensity `max(0.4, l·n)` of two normalized vectors, which
Cauchy-Schwarz bounds by 1, and the background is (0.2, 0.7, 0.8). -/
theorem framebuffer_range (i j : ℕ) (hi : i < width) (hj : j < height) :
    0 ≤ (pixel i j).x ∧ (pixel i j).x ≤ 1 ∧
    0 ≤ (pixel i j).y ∧ (pixel i j).y ≤ 1 ∧
    0 ≤ (pixel i j).z ∧ (pixel i j).z ≤ 1 := by
  have hpix : pixel i j =
      if (box_trace ⟨1/2, 1/2, 3⟩ (pixel_dir i j)).1
      then shade_box (box_trace ⟨1/2, 1/2, 3⟩ (pixel_dir i j)).2
      else background := by
    simp [pixel, calcSphere, calcBox]
  rw [hpix]
  cases hb : (box_trace ⟨1/2, 1/2, 3⟩ (pixel_dir i j)).1
  · simp only [Bool.false_eq_true, if_false]
    unfold background
    norm_num
  · simp only [if_true]
    obtain ⟨h1, h2⟩ :=
      shade_box_intensity_bounds (box_trace ⟨1/2, 1/2, 3⟩ (pixel_dir i j)).2
    have hcomp : shade_box (box_trace ⟨1/2, 1/2, 3⟩ (pixel_dir i j)).2 =
        ⟨light_intensity
            (normalize (light_pos - (box_trace ⟨1/2, 1/2, 3⟩ (pixel_dir i j)).2))
            (distance_field_normal_box (box_trace ⟨1/2, 1/2, 3⟩ (pixel_dir i j)).2),
          light_intensity
            (normalize (light_pos - (box_trace ⟨1/2, 1/2, 3⟩ (pixel_dir i j)).2))
            (distance_field_normal_box (box_trace ⟨1/2, 1/2, 3⟩ (pixel_dir i j)).2),
          light_intensity
            (normalize (light_pos - (box_trace ⟨1/2, 1/2, 3⟩ (pixel_dir i j)).2))
            (distance_field_normal_box (box_trace ⟨1/2, 1/2, 3⟩ (pixel_dir i j)).2)⟩ := by
      unfold shade_box smul
      ext <;> simp
    rw [hcomp]
    exact ⟨by linarith, by linarith, by linarith, by linarith, by linarith,
      by linarith⟩

/-- C7 witness: the range bounds at the concrete pixel (0, 0). -/
theorem framebuffer_range_witness :
    (0 : ℕ) < width ∧ (0 : ℕ) < height ∧
    0 ≤ (pixel 0 0).x ∧ (pixel 0 0).x ≤ 1 ∧
    0 ≤ (pixel 0 0).y ∧ (pixel 0 0).y ≤ 1 ∧
    0 ≤ (pixel 0 0).z ∧ (pixel 0 0).z ≤ 1 := by
  have hw : (0 : ℕ) < width := by norm_num [width]
  have hh : (0 : ℕ) < height := by norm_num [height]
  exact ⟨hw, hh, framebuffer_range 0 0 hw hh⟩

/-- C8: the render loop body assigns exactly one color to each pixel and
has no error path: since `calcSphere = false` and `calcBox = true`, the
pixel value is the Lambertian shaded color of the box hit point when
`box_trace` reports a hit, and the fixed teal `(0.2, 0.7, 0.8)` (the
`background` constant) for every missed ray. -/
theorem pixel_totality_background (i j : ℕ) :
    pixel i j =
      if (box_trace ⟨1/2, 1/2, 3⟩ (pixel_dir i j)).1
      then shade_box (box_trace ⟨1/2, 1/2, 3⟩ (pixel_dir i j)).2
      else background := by
  simp [pixel, calcSphere, calcBox]

/-- C9: determinism of the render.  The final framebuffer contents do not
depend on how the rows are distributed across workers (modelled as the
order `js` in which the row writes land) nor on the initial framebuffer
contents: any two schedules covering all rows give every in-range slot
`i + j * width` the same value, the pure function `pixel i j` of the pixel
index and the compile-time constants. -/
theorem render_schedule_deterministic (s1 s2 : List ℕ)
    (h1 : ∀ j, j < height → j ∈ s1) (h2 : ∀ j, j < height → j ∈ s2)
    (fb1 fb2 : ℕ → Vec3f) (i j : ℕ) (hi : i < width) (hj : j < height) :
    renderRows s1 fb1 (i + j * width) = pixel i j ∧
    renderRows s2 fb2 (i + j * width) = renderRows s1 fb1 (i + j * width) := by
  have e1 : renderRows s1 fb1 (i + j * width) = pixel i j := by
    rw [renderRows_apply i j hi s1 fb1, if_pos (h1 j hj)]
  have e2 : renderRows s2 fb2 (i + j * width) = pixel i j := by
    rw [renderRows_apply i j hi s2 fb2, if_pos (h2 j hj)]
  exact ⟨e1, e2.trans e1.symm⟩

/-- C9 witness: the schedule `0, 1, ..., 479` and its reverse, starting
from the all-zero framebuffer, agree at pixel (0, 0) and both produce
`pixel 0 0` there. -/
theorem render_schedule_deterministic_witness :
    renderRows (List.range height) (fun _ => ⟨0, 0, 0⟩) (0 + 0 * width) =
        pixel 0 0 ∧
      renderRows (List.range height).reverse (fun _ => ⟨0, 0, 0⟩)
          (0 + 0 * width) =
        renderRows (List.range height) (fun _ => ⟨0, 0, 0⟩) (0 + 0 * width) := by
  have ha : ∀ j, j < height → j ∈ List.range height := fun j hj =>
    List.mem_range.mpr hj
  have hb : ∀ j, j < height → j ∈ (List.range height).reverse := fun j hj =>
    List.mem_reverse.mpr (List.mem_range.mpr hj)
  exact render_schedule_deterministic (List.range height)
    (List.range height).reverse ha hb (fun _ => ⟨0, 0, 0⟩) (fun _ => ⟨0, 0, 0⟩)
    0 0 (by norm_num [width]) (by norm_num [height])

/-- C10 counterexample: at the framebuffer component `c = 0.87` the sink
writes `221` (the source truncates `255 * 0.87 = 221.85` toward zero via
`static_cast<int>`), while `clamp(round(255 c), 0, 255) = 222`, so the
claimed round-to-nearest conversion does not describe the code. -/
theorem sink_quantization_cex :
    sink_byte (87/100) = 221 ∧ sink_byte_spec (87/100) = 222 ∧
      sink_byte (87/100) ≠ sink_byte_spec (87/100) := by
  have hfloor : ⌊(255 * (87/100) : ℝ)⌋ = 221 := by
    rw [Int.floor_eq_iff]
    constructor <;> norm_num
  have hround : round (255 * (87/100) : ℝ) = 222 := by
    rw [round_eq]
    rw [Int.floor_eq_iff]
    constructor <;> norm_num
  have h1 : sink_byte (87/100) = 221 := by
    unfold sink_byte cast_trunc
    rw [if_neg (by norm_num), hfloor]
    norm_num
  have h2 : sink_byte_spec (87/100) = 222 := by
    unfold sink_byte_spec
    rw [hround]
    norm_num
  refine ⟨h1, h2, ?_⟩
  rw [h1, h2]
  norm_num

/-- C10 amended: the byte the sink writes for a component `c` is
`clamp(trunc(255 c), 0, 255)` where `trunc` is C++ `static_cast<int>`
truncation toward zero; for the nonnegative components the framebuffer
holds this is `clamp(⌊255 c⌋, 0, 255)` (floor, not round-to-nearest). -/
theorem sink_quantization_amended (c : ℝ) (hc : 0 ≤ c) :
    sink_byte c = max 0 (min 255 ⌊255 * c⌋) := by
  unfold sink_byte cast_trunc
  rw [if_neg (not_lt.mpr (by positivity))]

/-- C10 witness: the amended conversion at the concrete component
`c = 1/2`. -/
theorem sink_quantization_amended_witness :
    (0 : ℝ) ≤ 1/2 ∧ sink_byte (1/2) = max 0 (min 255 ⌊(255 * (1/2 : ℝ))⌋) :=
  ⟨by norm_num, sink_quantization_amended (1/2) (by norm_num)⟩

end RayMarch
